import Mathlib

/-!
Verification of the expo-sqlite prepared-statement facade
(`packages/expo-sqlite/src/next/SQLiteStatement.ts` against
`packages/expo-sqlite/src/next/NativeStatement.ts`).

The TypeScript layer is shallowly embedded: JavaScript runtime values are
an inductive `JSValue`; the pure helpers `normalizeParams`, `composeRow`
and `composeRows` are translated function by function; the facade methods
that talk to the native statement handle are modelled as explicit state
passing over an oracle `NativeStmt` (fixed column names plus a cursor of
pending rows) together with a `Trace` that counts native round-trips, so
that caching / single-pass claims can be stated as counter facts.
-/

set_option autoImplicit false

namespace ExpoSQLite

/-- Runtime JavaScript values as they cross the binding boundary:
scalars (string, number, boolean), the two nullish values, arrays, and
plain objects (insertion-ordered key/value lists).  Numbers carry an
`Int` payload; no arithmetic is ever performed on them by this layer. -/
inductive JSValue where
  | str (s : String)
  | num (n : Int)
  | bool (b : Bool)
  | null
  | undefined
  | array (elems : List JSValue)
  | object (fields : List (String × JSValue))
deriving Repr

/-- Loose equality with `null` (`x == null` in JavaScript): true exactly
for `null` and `undefined`. -/
def looseEqNull : JSValue → Bool
  | .null => true
  | .undefined => true
  | _ => false

/-- Whether `typeof x === 'object'` holds: true for `null`, arrays and
plain objects, false for strings, numbers, booleans and `undefined`. -/
def typeofIsObject : JSValue → Bool
  | .null => true
  | .array _ => true
  | .object _ => true
  | _ => false

/-- Model of `Array.isArray`. -/
def isArrayV : JSValue → Bool
  | .array _ => true
  | _ => false

/-- Whether the value is a plain object (a mapping / named-parameter
record). -/
def isMapping : JSValue → Bool
  | .object _ => true
  | _ => false

/-- Translation of `normalizeParams(...params)` from `SQLiteStatement.ts`
lines 252-268.  The variadic argument list is a `List JSValue`; `params`
as a JavaScript array is `JSValue.array params`; `params[0]` of an empty
list is `undefined`. -/
def normalizeParams (params : List JSValue) : JSValue × Bool :=
  let bindParams :=
    if 1 < params.length then JSValue.array params
    else params.headD JSValue.undefined
  let bindParams := if looseEqNull bindParams then JSValue.array [] else bindParams
  let bindParams := if typeofIsObject bindParams then bindParams else JSValue.array [bindParams]
  (bindParams, !isArrayV bindParams)

/-- Row objects are insertion-ordered association lists, the model of a
plain JavaScript object built by repeated property assignment. -/
abbrev RowObj := List (String × JSValue)

/-- Property read `row[k]`: the value at key `k`, if present. -/
def getKey : RowObj → String → Option JSValue
  | [], _ => none
  | p :: rest, k => if p.1 = k then some p.2 else getKey rest k

/-- Property assignment `row[k] = v` on a plain object: if the key is
already present its value is overwritten in place (insertion order kept),
otherwise the new pair is appended.  A JavaScript object never holds
duplicate keys, so overwriting the first occurrence is exact. -/
def setKey : RowObj → String → JSValue → RowObj
  | [], k, v => [(k, v)]
  | p :: rest, k, v => if p.1 = k then (k, v) :: rest else p :: setKey rest k v

/-- The assignment loop shared by `composeRow` (lines 281-283) and the
inner loop of `composeRows` (lines 307-309):
`for (i = 0; i < columnNames.length; i++) row[columnNames[i]] = columnValues[i]`.
Reading `columnValues[i]` past the end of the array yields `undefined`. -/
def buildRow (row : RowObj) : List String → List JSValue → RowObj
  | [], _ => row
  | n :: ns, columnValues =>
    buildRow (setKey row n (columnValues.headD JSValue.undefined)) ns columnValues.tail

/-- Translation of `composeRow(columnNames, columnValues)` from
`SQLiteStatement.ts` lines 274-285: a thrown `Error` is `Except.error`
carrying the message. -/
def composeRow (columnNames : List String) (columnValues : List JSValue) :
    Except String RowObj :=
  if columnNames.length ≠ columnValues.length then
    .error ("Column names and values count mismatch. Names: " ++
      toString columnNames.length ++ ", Values: " ++ toString columnValues.length)
  else
    .ok (buildRow [] columnNames columnValues)

/-- Translation of `composeRows(columnNames, columnValuesList)` from
`SQLiteStatement.ts` lines 291-313: empty list short-circuits to `[]`;
otherwise only the first row's length is checked, then every row is
composed with the same assignment loop. -/
def composeRows (columnNames : List String) (columnValuesList : List (List JSValue)) :
    Except String (List RowObj) :=
  if columnValuesList.length = 0 then
    .ok []
  else if columnNames.length ≠ (columnValuesList.headD []).length then
    .error ("Column names and values count mismatch. Names: " ++
      toString columnNames.length ++ ", Values: " ++
      toString (columnValuesList.headD []).length)
  else
    .ok (columnValuesList.map (fun columnValues => buildRow [] columnNames columnValues))

/-- What the native get-one operation can hand back, per the declared
signature `Promise<SQLiteColumnValues | null | undefined>`
(`NativeStatement.ts` lines 66-73 and 96-103). -/
inductive NativeGetResult where
  | values (columnValues : List JSValue)
  | jsNull
  | jsUndefined
deriving Repr

/-- The result-composition step shared by `getAsync` (line 91) and
`getSync` (line 199):
`columnValues != null ? composeRow(columnNames, columnValues) : null`.
Loose `!= null` is false exactly for `null` and `undefined`; in both of
those cases the facade returns the literal `null`. -/
def getReturnValue (columnNames : List String) (res : NativeGetResult) :
    Except String JSValue :=
  match res with
  | .values columnValues => (composeRow columnNames columnValues).map JSValue.object
  | .jsNull => .ok JSValue.null
  | .jsUndefined => .ok JSValue.null

/-- Oracle model of one native prepared-statement handle: its fixed
result-set column labels and the cursor of rows the native get-one
operation will still deliver (after which it answers with the absent
marker). -/
structure NativeStmt where
  columnNames : List String
  pending : List (List JSValue)
deriving Repr

/-- Counters of observable events: native `getColumnNames` round-trips,
native get-one (cursor step) round-trips, and `normalizeParams`
invocations. -/
structure Trace where
  getColumnNamesCalls : Nat
  stepCalls : Nat
  normalizeCalls : Nat
deriving Repr, DecidableEq

/-- A facade-visible statement state: the native handle plus the event
trace. -/
structure StmtState where
  native : NativeStmt
  trace : Trace
deriving Repr

/-- Trace update for one native get-one round-trip. -/
def incStep (t : Trace) : Trace :=
  { t with stepCalls := t.stepCalls + 1 }

/-- Native `getColumnNames` (both the sync and async variants): returns
the statement's fixed column labels; one round-trip is recorded. -/
def nativeGetColumnNames (s : StmtState) : List String × StmtState :=
  (s.native.columnNames,
    { s with trace := { s.trace with getColumnNamesCalls := s.trace.getColumnNamesCalls + 1 } })

/-- The facade's `getColumnNamesAsync` / `getColumnNamesSync`
(`SQLiteStatement.ts` lines 115-117 and 224-226): a bare forward to the
native call, with no cache in between. -/
def stmtGetColumnNames (s : StmtState) : List String × StmtState :=
  nativeGetColumnNames s

/-- Parameter normalization as performed at the top of each facade call;
the trace records that one `normalizeParams` invocation happened. -/
def normalizeTraced (args : List JSValue) (s : StmtState) :
    (JSValue × Bool) × StmtState :=
  (normalizeParams args,
    { s with trace := { s.trace with normalizeCalls := s.trace.normalizeCalls + 1 } })

/-- The do-while loop of `eachSync` (lines 174-180) / `eachAsync`
(lines 67-73) run to exhaustion over the cursor: each iteration performs
one native get-one round-trip, which pops the next pending row or
signals absence; non-absent rows are composed and yielded, and a
compose failure propagates as the thrown error.  Returns the yielded
rows, the rows left un-fetched, and the updated trace. -/
def eachLoop (columnNames : List String) :
    List (List JSValue) → Trace →
      Except String (List RowObj) × List (List JSValue) × Trace
  | [], t => (.ok [], [], incStep t)
  | r :: rest, t =>
    match composeRow columnNames r with
    | .error e => (.error e, rest, incStep t)
    | .ok row =>
      match eachLoop columnNames rest (incStep t) with
      | (.ok rows, rem, tFin) => (.ok (row :: rows), rem, tFin)
      | (.error e, rem, tFin) => (.error e, rem, tFin)

/-- The facade's `eachSync` / `eachAsync` consumed to completion:
normalize the variadic params once, fetch column names once, then loop
native get-one calls until the absent marker. -/
def stmtEach (args : List JSValue) (s : StmtState) :
    Except String (List RowObj) × StmtState :=
  let (_bindParams, s₁) := normalizeTraced args s
  let (columnNames, s₂) := stmtGetColumnNames s₁
  match eachLoop columnNames s₂.native.pending s₂.trace with
  | (res, rem, tFin) =>
    (res, { native := { s₂.native with pending := rem }, trace := tFin })

/-- The facade's `getAsync` / `getSync` (lines 85-92 and 193-200):
normalize params once, fetch column names (one native round-trip), make
one native get-one round-trip, then map the native result through
`getReturnValue`. -/
def stmtGet (args : List JSValue) (s : StmtState) :
    Except String JSValue × StmtState :=
  let (_bindParams, s₁) := normalizeTraced args s
  let (columnNames, s₂) := stmtGetColumnNames s₁
  match s₂.native.pending with
  | [] =>
    (getReturnValue columnNames .jsNull,
      { s₂ with trace := incStep s₂.trace })
  | r :: rest =>
    (getReturnValue columnNames (.values r),
      { native := { s₂.native with pending := rest }, trace := incStep s₂.trace })

/-- The facade's `allAsync` / `allSync` (lines 103-110 and 212-219):
normalize params once, fetch column names (one native round-trip), fetch
the whole remaining result set in one native call, then `composeRows`. -/
def stmtAll (args : List JSValue) (s : StmtState) :
    Except String (List RowObj) × StmtState :=
  let (_bindParams, s₁) := normalizeTraced args s
  let (columnNames, s₂) := stmtGetColumnNames s₁
  (composeRows columnNames s₂.native.pending,
    { native := { s₂.native with pending := [] }, trace := incStep s₂.trace })

/-- Keys of a row object, in insertion order. -/
def rowKeys (row : RowObj) : List String := row.map Prod.fst

/-- The value assigned last to key `k` when the assignment loop zips
`names` with `values` positionally: the value at the last occurrence of
`k` in `names` (a read past the end of `values` gives `undefined`), or
`none` when `k` does not occur in `names`. -/
def lastAssign : List String → List JSValue → String → Option JSValue
  | [], _, _ => none
  | n :: ns, values, k =>
    match lastAssign ns values.tail k with
    | some v => some v
    | none => if n = k then some (values.headD JSValue.undefined) else none

/-- First-occurrence key accumulation: the keys a sequence of
assignments leaves on an object whose keys start as `ks`. -/
def accumKeys (ks : List String) (names : List String) : List String :=
  names.foldl (fun acc n => if n ∈ acc then acc else acc ++ [n]) ks

theorem getKey_setKey (m : RowObj) (k : String) (v : JSValue) (q : String) :
    getKey (setKey m k v) q = if q = k then some v else getKey m q := by
  induction m with
  | nil =>
    rcases eq_or_ne q k with h | h
    · subst h; simp [setKey, getKey]
    · simp [setKey, getKey, h, Ne.symm h]
  | cons p rest ih =>
    by_cases hp : p.1 = k
    · rcases eq_or_ne q k with h | h
      · subst h; simp [setKey, getKey, hp]
      · simp [setKey, getKey, hp, h, Ne.symm h]
    · rcases eq_or_ne q k with h | h
      · subst h; simp [setKey, getKey, hp, ih]
      · simp [setKey, getKey, hp, h, ih]

theorem rowKeys_setKey (m : RowObj) (k : String) (v : JSValue) :
    rowKeys (setKey m k v) =
      if k ∈ rowKeys m then rowKeys m else rowKeys m ++ [k] := by
  induction m with
  | nil => simp [setKey, rowKeys]
  | cons p rest ih =>
    by_cases hp : p.1 = k
    · simp [setKey, rowKeys, hp]
    · have hne : k ≠ p.1 := fun he => hp he.symm
      have ih' := ih
      simp only [rowKeys] at ih' ⊢
      by_cases hk : k ∈ List.map Prod.fst rest
      · simp [setKey, hp, hne, hk, ih']
      · simp [setKey, hp, hne, hk, ih']

theorem getKey_buildRow (names : List String) :
    ∀ (values : List JSValue) (row : RowObj) (k : String),
      getKey (buildRow row names values) k =
        (match lastAssign names values k with
          | some v => some v
          | none => getKey row k) := by
  induction names with
  | nil => intro values row k; simp [buildRow, lastAssign]
  | cons n ns ih =>
    intro values row k
    rw [buildRow, ih, lastAssign]
    cases h : lastAssign ns values.tail k with
    | some v => simp
    | none =>
      rcases eq_or_ne n k with hk | hk
      · subst hk; simp [getKey_setKey]
      · simp [getKey_setKey, hk, Ne.symm hk]

theorem lastAssign_eq_none (names : List String) (values : List JSValue)
    (k : String) (h : k ∉ names) : lastAssign names values k = none := by
  induction names generalizing values with
  | nil => rfl
  | cons n ns ih =>
    rw [lastAssign, ih values.tail (fun hm => h (List.mem_cons_of_mem n hm))]
    have : n ≠ k := fun he => h (he ▸ List.mem_cons_self n ns)
    simp [this]

theorem lastAssign_last_occurrence (names : List String) :
    ∀ (values : List JSValue) (k : String), k ∈ names →
      ∃ i, ∃ h : i < names.length,
        names.get ⟨i, h⟩ = k ∧
        (∀ j, ∀ hj : j < names.length, i < j → names.get ⟨j, hj⟩ ≠ k) ∧
        lastAssign names values k = some (values.getD i JSValue.undefined) := by
  induction names with
  | nil => intro values k h; cases h
  | cons n ns ih =>
    intro values k h
    by_cases hm : k ∈ ns
    · obtain ⟨i, hi, hget, hlast, hassign⟩ := ih values.tail k hm
      refine ⟨i + 1, Nat.succ_lt_succ hi, hget, ?_, ?_⟩
      · intro j hj hij hne
        match j, hj with
        | j' + 1, hj =>
          exact hlast j' (Nat.lt_of_succ_lt_succ hj) (Nat.lt_of_succ_lt_succ hij) hne
      · rw [lastAssign, hassign]
        simp [List.getD_cons_succ]
    · have hk : n = k := by
        rcases List.mem_cons.mp h with h' | h'
        · exact h'.symm
        · exact absurd h' hm
      refine ⟨0, Nat.succ_pos _, hk, ?_, ?_⟩
      · intro j hj hij hne
        match j, hj with
        | j' + 1, hj =>
          exact hm (hne ▸ List.get_mem ns j' (Nat.lt_of_succ_lt_succ hj))
      · rw [lastAssign, lastAssign_eq_none ns values.tail k hm]
        cases values <;> simp [hk, List.getD]

theorem rowKeys_buildRow (names : List String) :
    ∀ (values : List JSValue) (row : RowObj),
      rowKeys (buildRow row names values) = accumKeys (rowKeys row) names := by
  induction names with
  | nil => intro values row; rfl
  | cons n ns ih =>
    intro values row
    rw [buildRow, ih, rowKeys_setKey]
    simp only [accumKeys, List.foldl_cons]

theorem accumKeys_cons (ks : List String) (n : String) (ns : List String) :
    accumKeys ks (n :: ns) = accumKeys (if n ∈ ks then ks else ks ++ [n]) ns := rfl

theorem length_accumKeys_le (names : List String) :
    ∀ ks : List String, (accumKeys ks names).length ≤ ks.length + names.length := by
  induction names with
  | nil => intro ks; simp [accumKeys]
  | cons n ns ih =>
    intro ks
    rw [accumKeys_cons]
    by_cases hn : n ∈ ks
    · simp only [if_pos hn]
      calc (accumKeys ks ns).length ≤ ks.length + ns.length := ih ks
        _ ≤ ks.length + (n :: ns).length := by simp
    · simp only [if_neg hn]
      calc (accumKeys (ks ++ [n]) ns).length ≤ (ks ++ [n]).length + ns.length := ih _
        _ = ks.length + (n :: ns).length := by simp; omega

theorem length_accumKeys_lt_of_mem (names : List String) :
    ∀ ks : List String, (∃ n ∈ names, n ∈ ks) →
      (accumKeys ks names).length < ks.length + names.length := by
  induction names with
  | nil => rintro ks ⟨n, hn, _⟩; cases hn
  | cons m ms ih =>
    rintro ks ⟨n, hn, hks⟩
    rw [accumKeys_cons]
    by_cases hm : m ∈ ks
    · simp only [if_pos hm]
      calc (accumKeys ks ms).length ≤ ks.length + ms.length := length_accumKeys_le ms ks
        _ < ks.length + (m :: ms).length := by simp
    · simp only [if_neg hm]
      have hnm : n ∈ ms := by
        rcases List.mem_cons.mp hn with h | h
        · exact absurd (h ▸ hks) hm
        · exact h
      have hrec := ih (ks ++ [m]) ⟨n, hnm, List.mem_append_left [m] hks⟩
      calc (accumKeys (ks ++ [m]) ms).length < (ks ++ [m]).length + ms.length := hrec
        _ = ks.length + (m :: ms).length := by simp; omega

theorem length_accumKeys_lt_of_not_nodup (names : List String) :
    ∀ ks : List String, ¬ names.Nodup →
      (accumKeys ks names).length < ks.length + names.length := by
  induction names with
  | nil => intro ks h; exact absurd List.nodup_nil h
  | cons m ms ih =>
    intro ks h
    rw [accumKeys_cons]
    rcases Decidable.not_and_iff_or_not.mp (fun hc => h (List.nodup_cons.mpr hc)) with h' | h'
    · have hmem : m ∈ ms := Decidable.not_not.mp h'
      have hstep : m ∈ (if m ∈ ks then ks else ks ++ [m]) := by
        by_cases hk : m ∈ ks
        · simp [hk]
        · simp [hk]
      have hrec := length_accumKeys_lt_of_mem ms _ ⟨m, hmem, hstep⟩
      calc (accumKeys (if m ∈ ks then ks else ks ++ [m]) ms).length
          < (if m ∈ ks then ks else ks ++ [m]).length + ms.length := hrec
        _ ≤ ks.length + (m :: ms).length := by
            by_cases hk : m ∈ ks <;> simp [hk] <;> omega
    · have hrec := ih (if m ∈ ks then ks else ks ++ [m]) h'
      calc (accumKeys (if m ∈ ks then ks else ks ++ [m]) ms).length
          < (if m ∈ ks then ks else ks ++ [m]).length + ms.length := hrec
        _ ≤ ks.length + (m :: ms).length := by
            by_cases hk : m ∈ ks <;> simp [hk] <;> omega

theorem eachLoop_ok (columnNames : List String) :
    ∀ (pending : List (List JSValue)) (t : Trace),
      (∀ r ∈ pending, columnNames.length = r.length) →
      eachLoop columnNames pending t =
        (.ok (pending.map (fun r => buildRow [] columnNames r)), [],
          { t with stepCalls := t.stepCalls + (pending.length + 1) }) := by
  intro pending
  induction pending with
  | nil =>
    intro t _
    simp [eachLoop, incStep]
  | cons r rest ih =>
    intro t hshape
    have hr : columnNames.length = r.length := hshape r (List.mem_cons_self r rest)
    have hrest : ∀ q ∈ rest, columnNames.length = q.length :=
      fun q hq => hshape q (List.mem_cons_of_mem r hq)
    have hcompose : composeRow columnNames r = .ok (buildRow [] columnNames r) := by
      rw [composeRow, if_neg (by omega)]
    rw [eachLoop, hcompose]
    rw [ih (incStep t) hrest]
    simp only [List.map_cons, List.length_cons, incStep]
    have harith : t.stepCalls + 1 + (rest.length + 1) = t.stepCalls + (rest.length + 1 + 1) := by
      omega
    rw [harith]

theorem eachLoop_trace_other (columnNames : List String) :
    ∀ (pending : List (List JSValue)) (t : Trace),
      (eachLoop columnNames pending t).2.2.getColumnNamesCalls = t.getColumnNamesCalls ∧
      (eachLoop columnNames pending t).2.2.normalizeCalls = t.normalizeCalls := by
  intro pending
  induction pending with
  | nil => intro t; exact ⟨rfl, rfl⟩
  | cons r rest ih =>
    intro t
    rw [eachLoop]
    cases hc : composeRow columnNames r with
    | error e => exact ⟨rfl, rfl⟩
    | ok row =>
      rcases he : eachLoop columnNames rest (incStep t) with ⟨res, rem, tFin⟩
      have hih := ih (incStep t)
      rw [he] at hih
      cases res with
      | ok rows => exact hih
      | error e => exact hih

/-- C1 (as stated): false on the code.  The facade holds no cache: two
`getColumnNames` calls on the same statement make two native
`getColumnNames` round-trips, and two `get` calls on the same statement
also make one native `getColumnNames` round-trip each. -/
theorem getColumnNames_called_twice_two_native_calls :
    (stmtGetColumnNames
        (stmtGetColumnNames ⟨⟨["a"], []⟩, ⟨0, 0, 0⟩⟩).2).2.trace.getColumnNamesCalls = 2 ∧
    (stmtGet []
        (stmtGet [] ⟨⟨["a"], [[JSValue.num 1], [JSValue.num 2]]⟩,
          ⟨0, 0, 0⟩⟩).2).2.trace.getColumnNamesCalls = 2 :=
  ⟨rfl, rfl⟩

/-- C1 (amended): the facade performs exactly one native
`getColumnNames` round-trip per call rather than at most one per
statement: `getColumnNames` forwards straight to the native layer every
time, and each `get`, `all` and `each` call performs one further native
`getColumnNames` round-trip of its own.  Only the returned value is
stable across repeated calls. -/
theorem getColumnNames_one_native_roundtrip_per_call (args : List JSValue) (s : StmtState) :
    (stmtGetColumnNames s).1 = s.native.columnNames ∧
    (stmtGetColumnNames s).2.trace.getColumnNamesCalls = s.trace.getColumnNamesCalls + 1 ∧
    (stmtGetColumnNames (stmtGetColumnNames s).2).1 = (stmtGetColumnNames s).1 ∧
    (stmtGet args s).2.trace.getColumnNamesCalls = s.trace.getColumnNamesCalls + 1 ∧
    (stmtAll args s).2.trace.getColumnNamesCalls = s.trace.getColumnNamesCalls + 1 ∧
    (stmtEach args s).2.trace.getColumnNamesCalls = s.trace.getColumnNamesCalls + 1 := by
  refine ⟨rfl, rfl, rfl, ?_, rfl, ?_⟩
  · rw [stmtGet]
    cases h : s.native.pending <;>
      simp [normalizeTraced, stmtGetColumnNames, nativeGetColumnNames, incStep, h]
  · rw [stmtEach]
    have hother := eachLoop_trace_other s.native.columnNames s.native.pending
    rcases he : eachLoop s.native.columnNames s.native.pending
        ⟨s.trace.getColumnNamesCalls + 1, s.trace.stepCalls, s.trace.normalizeCalls + 1⟩
      with ⟨res, rem, tFin⟩
    have hth := (hother ⟨s.trace.getColumnNamesCalls + 1, s.trace.stepCalls,
      s.trace.normalizeCalls + 1⟩).1
    rw [he] at hth
    simpa [normalizeTraced, stmtGetColumnNames, nativeGetColumnNames, he] using hth

/-- C2 (as stated): false on the code.  A single `null` argument is not
wrapped into the one-element sequence `[null]`: the loose `== null`
check replaces it with the empty positional array first. -/
theorem normalizeParams_null_not_wrapped :
    normalizeParams [JSValue.null] ≠ (JSValue.array [JSValue.null], false) := by
  intro h
  simpa [normalizeParams, looseEqNull, typeofIsObject, isArrayV] using h

/-- C2 (amended): a single non-nullish scalar argument (text, number or
boolean) is wrapped into the one-element positional sequence with the
named-form flag false; a single `null` argument instead falls into the
absent-argument default and yields the empty positional sequence with
flag false. -/
theorem normalizeParams_single_scalar_wrapped (v : JSValue)
    (hscalar : typeofIsObject v = false) (hnonnull : looseEqNull v = false) :
    normalizeParams [v] = (JSValue.array [v], false) ∧
    normalizeParams [JSValue.null] = (JSValue.array [], false) := by
  constructor
  · simp [normalizeParams, hscalar, hnonnull, isArrayV]
  · rfl

/-- Witness for C2's amended theorem at the spec's own example input 5:
`normalize(5)` yields `[5]` with the named-form flag false. -/
theorem normalizeParams_single_scalar_wrapped_witness :
    normalizeParams [JSValue.num 5] = (JSValue.array [JSValue.num 5], false) :=
  (normalizeParams_single_scalar_wrapped (JSValue.num 5) rfl rfl).1

/-- C3 (as stated): false on the code.  A length mismatch in a row other
than the first raises no error: here the second row has two values
against one column name, yet `composeRows` succeeds and silently
truncates the second row to the column-name count. -/
theorem composeRows_second_row_mismatch_silently_truncated :
    composeRows ["a"] [[JSValue.num 1], [JSValue.num 2, JSValue.num 3]] =
      .ok [[("a", JSValue.num 1)], [("a", JSValue.num 2)]] := rfl

/-- C3 (amended): `composeRows` raises the shape-mismatch error exactly
when the list is non-empty and the FIRST row's value count disagrees
with the column-name count; rows after the first are composed without
validation (mismatched later rows are silently truncated or padded). -/
theorem composeRows_error_iff_first_row_mismatch (columnNames : List String)
    (columnValuesList : List (List JSValue)) :
    (∃ e, composeRows columnNames columnValuesList = .error e) ↔
      (columnValuesList ≠ [] ∧
        columnNames.length ≠ (columnValuesList.headD []).length) := by
  cases columnValuesList with
  | nil => simp [composeRows]
  | cons r rest =>
    by_cases h : columnNames.length = r.length
    · simp [composeRows, h]
    · simp [composeRows, h]

/-- Witness for C3's amended theorem: a first-row mismatch does raise
the error. -/
theorem composeRows_error_iff_first_row_mismatch_witness :
    ∃ e, composeRows ["a", "b"] [[JSValue.num 1]] = .error e :=
  (composeRows_error_iff_first_row_mismatch ["a", "b"] [[JSValue.num 1]]).mpr
    ⟨List.cons_ne_nil _ _, by decide⟩

/-- C4: `composeRow` fails with the length-mismatch error exactly when
the name count and value count disagree; on success (and with distinct
names) the i-th name looks up the i-th value. -/
theorem composeRow_length_check_and_mapping (columnNames : List String)
    (columnValues : List JSValue) :
    ((∃ e, composeRow columnNames columnValues = .error e) ↔
      columnNames.length ≠ columnValues.length) ∧
    (columnNames.length = columnValues.length →
      composeRow columnNames columnValues = .ok (buildRow [] columnNames columnValues)) ∧
    (columnNames.Nodup →
      ∀ i, ∀ h : i < columnNames.length,
        getKey (buildRow [] columnNames columnValues) (columnNames.get ⟨i, h⟩) =
          some (columnValues.getD i JSValue.undefined)) := by
  refine ⟨?_, ?_, ?_⟩
  · by_cases h : columnNames.length = columnValues.length
    · simp [composeRow, h]
    · simp [composeRow, h]
  · intro h
    rw [composeRow, if_neg (by omega)]
  · intro hnd i h
    have hk : columnNames.get ⟨i, h⟩ ∈ columnNames := List.get_mem columnNames i h
    obtain ⟨j, hj, hget, _hlast, hassign⟩ :=
      lastAssign_last_occurrence columnNames columnValues (columnNames.get ⟨i, h⟩) hk
    have hinj := List.nodup_iff_injective_get.mp hnd
    have hji : (⟨j, hj⟩ : Fin columnNames.length) = ⟨i, h⟩ := hinj hget
    rw [getKey_buildRow, hassign]
    have : j = i := congrArg Fin.val hji
    subst this
    rfl

/-- Witness for C4 at the spec's own examples. -/
theorem composeRow_length_check_and_mapping_witness :
    composeRow ["a", "b"] [JSValue.num 1, JSValue.num 2] =
      .ok (buildRow [] ["a", "b"] [JSValue.num 1, JSValue.num 2]) ∧
    getKey (buildRow [] ["a", "b"] [JSValue.num 1, JSValue.num 2]) "a" =
      some (JSValue.num 1) ∧
    getKey (buildRow [] ["a", "b"] [JSValue.num 1, JSValue.num 2]) "b" =
      some (JSValue.num 2) ∧
    (∃ e, composeRow ["a", "b"] [JSValue.num 1] = .error e) := by
  refine ⟨(composeRow_length_check_and_mapping ["a", "b"]
      [JSValue.num 1, JSValue.num 2]).2.1 rfl, ?_, ?_,
    (composeRow_length_check_and_mapping ["a", "b"] [JSValue.num 1]).1.mpr (by decide)⟩
  · exact (composeRow_length_check_and_mapping ["a", "b"]
      [JSValue.num 1, JSValue.num 2]).2.2 (by decide) 0 (by decide)
  · exact (composeRow_length_check_and_mapping ["a", "b"]
      [JSValue.num 1, JSValue.num 2]).2.2 (by decide) 1 (by decide)

/-- C5: `composeRows` on an empty list yields the empty sequence for any
column names; on a non-empty list whose first row matches the name
count, it composes every row in order with the same names, one output
row per input row. -/
theorem composeRows_empty_and_first_row_only (columnNames : List String)
    (columnValuesList : List (List JSValue)) :
    composeRows columnNames [] = .ok [] ∧
    (columnValuesList ≠ [] →
      columnNames.length = (columnValuesList.headD []).length →
      composeRows columnNames columnValuesList =
        .ok (columnValuesList.map (fun columnValues => buildRow [] columnNames columnValues)) ∧
      (columnValuesList.map (fun columnValues => buildRow [] columnNames columnValues)).length
        = columnValuesList.length) := by
  refine ⟨rfl, ?_⟩
  intro hne hlen
  refine ⟨?_, by simp⟩
  cases columnValuesList with
  | nil => exact absurd rfl hne
  | cons r rest =>
    simp only [List.headD_cons] at hlen
    simp [composeRows, hlen]

/-- Witness for C5 at the spec's own examples. -/
theorem composeRows_empty_and_first_row_only_witness :
    composeRows ["a"] [] = .ok [] ∧
    composeRows ["a", "b"] [[JSValue.num 1, JSValue.num 2], [JSValue.num 3, JSValue.num 4]] =
      .ok [[("a", JSValue.num 1), ("b", JSValue.num 2)],
        [("a", JSValue.num 3), ("b", JSValue.num 4)]] := by
  refine ⟨(composeRows_empty_and_first_row_only ["a"] []).1, ?_⟩
  exact ((composeRows_empty_and_first_row_only ["a", "b"]
    [[JSValue.num 1, JSValue.num 2], [JSValue.num 3, JSValue.num 4]]).2
    (List.cons_ne_nil _ _) rfl).1

/-- C10: with duplicate column names (and matching counts), composition
succeeds with no error, every name looks up the value at its last
occurrence, and the composed row has strictly fewer keys than
`columnNames.length`, so values at earlier occurrences are lost. -/
theorem composeRow_duplicate_names_last_occurrence_wins (columnNames : List String)
    (columnValues : List JSValue)
    (hlen : columnNames.length = columnValues.length)
    (hdup : ¬ columnNames.Nodup) :
    composeRow columnNames columnValues = .ok (buildRow [] columnNames columnValues) ∧
    composeRows columnNames [columnValues] = .ok [buildRow [] columnNames columnValues] ∧
    (∀ k, k ∈ columnNames →
      ∃ i, ∃ h : i < columnNames.length,
        columnNames.get ⟨i, h⟩ = k ∧
        (∀ j, ∀ hj : j < columnNames.length, i < j → columnNames.get ⟨j, hj⟩ ≠ k) ∧
        getKey (buildRow [] columnNames columnValues) k =
          some (columnValues.getD i JSValue.undefined)) ∧
    (buildRow [] columnNames columnValues).length < columnNames.length := by
  refine ⟨?_, ?_, ?_, ?_⟩
  · rw [composeRow, if_neg (by omega)]
  · simp [composeRows, hlen]
  · intro k hk
    obtain ⟨i, h, hget, hlast, hassign⟩ :=
      lastAssign_last_occurrence columnNames columnValues k hk
    refine ⟨i, h, hget, hlast, ?_⟩
    rw [getKey_buildRow, hassign]
  · have hkeys : rowKeys (buildRow [] columnNames columnValues) = accumKeys [] columnNames :=
      rowKeys_buildRow columnNames columnValues []
    have hlt := length_accumKeys_lt_of_not_nodup columnNames [] hdup
    have hlen2 : (buildRow [] columnNames columnValues).length =
        (rowKeys (buildRow [] columnNames columnValues)).length := by
      simp [rowKeys]
    rw [hlen2, hkeys]
    simpa using hlt

/-- Witness for C10 at column names `["a","a"]`: the row keeps one key
and reads the second value. -/
theorem composeRow_duplicate_names_last_occurrence_wins_witness :
    composeRow ["a", "a"] [JSValue.num 1, JSValue.num 2] =
      .ok (buildRow [] ["a", "a"] [JSValue.num 1, JSValue.num 2]) ∧
    (buildRow [] ["a", "a"] [JSValue.num 1, JSValue.num 2]).length < 2 ∧
    getKey (buildRow [] ["a", "a"] [JSValue.num 1, JSValue.num 2]) "a" =
      some (JSValue.num 2) := by
  refine ⟨(composeRow_duplicate_names_last_occurrence_wins ["a", "a"]
      [JSValue.num 1, JSValue.num 2] rfl (by decide)).1,
    (composeRow_duplicate_names_last_occurrence_wins ["a", "a"]
      [JSValue.num 1, JSValue.num 2] rfl (by decide)).2.2.2, rfl⟩

/-- C6: the normalization rules apply in order: more than one argument
gives the whole list as the positional form with flag false; zero
arguments give the empty positional form with flag false; and the
named-form flag is true exactly when the resulting value is a mapping. -/
theorem normalizeParams_rules_in_order (params : List JSValue) :
    (1 < params.length → normalizeParams params = (JSValue.array params, false)) ∧
    (params = [] → normalizeParams params = (JSValue.array [], false)) ∧
    ((normalizeParams params).2 = true ↔ isMapping (normalizeParams params).1 = true) := by
  rcases params with _ | ⟨v, _ | ⟨w, rest⟩⟩
  · exact ⟨fun h => absurd h (by decide), fun _ => rfl, by decide⟩
  · refine ⟨fun h => absurd h (by simp), fun h => absurd h (List.cons_ne_nil _ _), ?_⟩
    cases v <;> simp [normalizeParams, looseEqNull, typeofIsObject, isArrayV, isMapping]
  · have h2 : 1 < (v :: w :: rest).length := by
      simp only [List.length_cons]; omega
    refine ⟨fun _ => ?_, fun h => absurd h (List.cons_ne_nil _ _), ?_⟩
    · simp [normalizeParams, if_pos h2, looseEqNull, typeofIsObject, isArrayV]
    · simp [normalizeParams, if_pos h2, looseEqNull, typeofIsObject, isArrayV, isMapping]

/-- Witness for C6 at the spec's own examples: three scalars collapse to
the three-element positional sequence, zero arguments to the empty one. -/
theorem normalizeParams_rules_in_order_witness :
    normalizeParams [JSValue.str "v1", JSValue.num 2, JSValue.bool true] =
      (JSValue.array [JSValue.str "v1", JSValue.num 2, JSValue.bool true], false) ∧
    normalizeParams [] = (JSValue.array [], false) :=
  ⟨(normalizeParams_rules_in_order
      [JSValue.str "v1", JSValue.num 2, JSValue.bool true]).1 (by decide),
    (normalizeParams_rules_in_order []).2.1 rfl⟩

/-- C7: consuming `each` over a statement whose cursor holds a finite
result set (every row of the statement's column count) yields exactly
one composed row per pending row, in fetch order, then terminates after
the final native step reports the absent marker; the whole iteration
normalizes params exactly once and steps the native cursor exactly
`n + 1` times for `n` rows (single pass). -/
theorem stmtEach_finite_single_pass (args : List JSValue) (s : StmtState)
    (hshape : ∀ r ∈ s.native.pending, s.native.columnNames.length = r.length) :
    (stmtEach args s).1 =
      .ok (s.native.pending.map (fun r => buildRow [] s.native.columnNames r)) ∧
    (∀ rows, (stmtEach args s).1 = .ok rows → rows.length = s.native.pending.length) ∧
    (stmtEach args s).2.native.pending = [] ∧
    (stmtEach args s).2.trace.stepCalls = s.trace.stepCalls + s.native.pending.length + 1 ∧
    (stmtEach args s).2.trace.normalizeCalls = s.trace.normalizeCalls + 1 := by
  have hloop := eachLoop_ok s.native.columnNames s.native.pending
    ⟨s.trace.getColumnNamesCalls + 1, s.trace.stepCalls, s.trace.normalizeCalls + 1⟩ hshape
  have hunfold : stmtEach args s =
      (.ok (s.native.pending.map (fun r => buildRow [] s.native.columnNames r)),
        { native := { s.native with pending := [] },
          trace := ⟨s.trace.getColumnNamesCalls + 1,
            s.trace.stepCalls + (s.native.pending.length + 1),
            s.trace.normalizeCalls + 1⟩ }) := by
    simp [stmtEach, normalizeTraced, stmtGetColumnNames, nativeGetColumnNames, hloop]
  refine ⟨by rw [hunfold], ?_, by rw [hunfold], by rw [hunfold]; simp; omega,
    by rw [hunfold]⟩
  intro rows hrows
  rw [hunfold] at hrows
  simp only [Except.ok.injEq] at hrows
  subst hrows
  simp

/-- Witness for C7 at the spec's own example: a three-row result set
yields exactly three composed rows, four native steps, one
normalization. -/
theorem stmtEach_finite_single_pass_witness :
    (stmtEach []
        ⟨⟨["a"], [[JSValue.num 1], [JSValue.num 2], [JSValue.num 3]]⟩, ⟨0, 0, 0⟩⟩).1 =
      .ok [[("a", JSValue.num 1)], [("a", JSValue.num 2)], [("a", JSValue.num 3)]] ∧
    (stmtEach []
        ⟨⟨["a"], [[JSValue.num 1], [JSValue.num 2], [JSValue.num 3]]⟩,
          ⟨0, 0, 0⟩⟩).2.trace.stepCalls = 4 ∧
    (stmtEach []
        ⟨⟨["a"], [[JSValue.num 1], [JSValue.num 2], [JSValue.num 3]]⟩,
          ⟨0, 0, 0⟩⟩).2.trace.normalizeCalls = 1 :=
  ⟨(stmtEach_finite_single_pass []
      ⟨⟨["a"], [[JSValue.num 1], [JSValue.num 2], [JSValue.num 3]]⟩, ⟨0, 0, 0⟩⟩
      (by decide)).1,
    (stmtEach_finite_single_pass []
      ⟨⟨["a"], [[JSValue.num 1], [JSValue.num 2], [JSValue.num 3]]⟩, ⟨0, 0, 0⟩⟩
      (by decide)).2.2.2.1,
    (stmtEach_finite_single_pass []
      ⟨⟨["a"], [[JSValue.num 1], [JSValue.num 2], [JSValue.num 3]]⟩, ⟨0, 0, 0⟩⟩
      (by decide)).2.2.2.2⟩

/-- C8: `normalizeParams` is deterministic and total: identical argument
lists yield identical params value and flag (it is a pure function of
its argument list, with no other inputs), and out-of-domain composites
(arbitrary, possibly nested objects) are passed through uninspected
rather than failing. -/
theorem normalizeParams_deterministic (args other : List JSValue) (h : args = other) :
    normalizeParams args = normalizeParams other ∧
    (∀ fields, normalizeParams [JSValue.object fields] = (JSValue.object fields, true)) ∧
    (∀ elems, normalizeParams [JSValue.array elems] = (JSValue.array elems, false)) :=
  ⟨h ▸ rfl, fun _ => rfl, fun _ => rfl⟩

/-- Witness for C8: two identical runs agree, and a nested object passes
through uninspected. -/
theorem normalizeParams_deterministic_witness :
    normalizeParams [JSValue.num 5] = normalizeParams [JSValue.num 5] ∧
    normalizeParams [JSValue.object [("nested", JSValue.object [])]] =
      (JSValue.object [("nested", JSValue.object [])], true) :=
  ⟨(normalizeParams_deterministic [JSValue.num 5] [JSValue.num 5] rfl).1,
    (normalizeParams_deterministic [] [] rfl).2.1 [("nested", JSValue.object [])]⟩

/-- C9: the facade's get path returns the literal `null` (never
`undefined`) whenever the native get-one result is `null` or
`undefined`, and it composes a row exactly when the native result is a
real value row. -/
theorem getReturnValue_exactly_null_or_row (columnNames : List String)
    (res : NativeGetResult) :
    getReturnValue columnNames .jsNull = .ok JSValue.null ∧
    getReturnValue columnNames .jsUndefined = .ok JSValue.null ∧
    (∀ v, getReturnValue columnNames res = .ok v → v ≠ JSValue.undefined) ∧
    (∀ row, getReturnValue columnNames res = .ok (JSValue.object row) →
      ∃ columnValues, res = .values columnValues ∧
        composeRow columnNames columnValues = .ok row) := by
  refine ⟨rfl, rfl, ?_, ?_⟩
  · intro v hv
    cases res with
    | values columnValues =>
      cases hc : composeRow columnNames columnValues with
      | error e => rw [getReturnValue, hc] at hv; cases hv
      | ok row =>
        rw [getReturnValue, hc] at hv
        simp only [Except.map, Except.ok.injEq] at hv
        subst hv
        intro hcontra
        cases hcontra
    | jsNull =>
      rw [getReturnValue] at hv
      simp only [Except.ok.injEq] at hv
      subst hv
      intro hcontra
      cases hcontra
    | jsUndefined =>
      rw [getReturnValue] at hv
      simp only [Except.ok.injEq] at hv
      subst hv
      intro hcontra
      cases hcontra
  · intro row hrow
    cases res with
    | values columnValues =>
      cases hc : composeRow columnNames columnValues with
      | error e => rw [getReturnValue, hc] at hrow; cases hrow
      | ok row' =>
        rw [getReturnValue, hc] at hrow
        simp only [Except.map, Except.ok.injEq, JSValue.object.injEq] at hrow
        exact ⟨columnValues, rfl, by rw [hc, hrow]⟩
    | jsNull =>
      rw [getReturnValue] at hrow
      simp only [Except.ok.injEq] at hrow
      cases hrow
    | jsUndefined =>
      rw [getReturnValue] at hrow
      simp only [Except.ok.injEq] at hrow
      cases hrow

/-- Witness for C9: a null native result maps to the literal null, and a
one-value native row composes to the keyed row. -/
theorem getReturnValue_exactly_null_or_row_witness :
    getReturnValue ["a"] .jsNull = .ok JSValue.null ∧
    getReturnValue ["a"] .jsUndefined = .ok JSValue.null ∧
    (∃ columnValues, NativeGetResult.values [JSValue.num 7] = .values columnValues ∧
      composeRow ["a"] columnValues = .ok [("a", JSValue.num 7)]) :=
  ⟨(getReturnValue_exactly_null_or_row ["a"] .jsNull).1,
    (getReturnValue_exactly_null_or_row ["a"] .jsNull).2.1,
    (getReturnValue_exactly_null_or_row ["a"] (.values [JSValue.num 7])).2.2.2
      [("a", JSValue.num 7)] rfl⟩

end ExpoSQLite
